import Mathlib

/-
Verification of the spell-correction engine in main.go against its
natural-language specification.

Modelling conventions.
Go strings are modelled as `List Char`.  The program applies its
byte-level loops and rune-level loops to the same data; on ASCII text
(the domain of the dictionary, the edit alphabet and every classifier
used by the program) byte indexing and rune iteration coincide, and the
Unicode character classifiers (unicode.IsSpace, unicode.IsPunct,
unicode.IsLetter, unicode.IsNumber, unicode.IsUpper, unicode.IsDigit)
are modelled by their restrictions to ASCII, written out below from the
Unicode tables for the ASCII range.
The global variables `dictionary` and `WordFrequency` are passed as
explicit parameters.  The frequency map is modelled as a total function
`List Char -> Int` returning 0 for absent keys, exactly the behaviour of
a Go map read.
`sort.Slice` is an unstable comparison sort: the only guarantee is that
the result is sorted for the given comparator.  It is modelled by
`List.insertionSort`, which satisfies that contract and is executable in
the kernel.
-/

/-- ASCII restriction of unicode.IsSpace (space runs of the Latin-1 range:
tab, newline, vertical tab, form feed, carriage return, space, NEL, NBSP). -/
def isSpaceU (c : Char) : Bool :=
  c.toNat = 9 || c.toNat = 10 || c.toNat = 11 || c.toNat = 12 || c.toNat = 13 ||
  c.toNat = 32 || c.toNat = 133 || c.toNat = 160

/-- Unicode code points of the ASCII characters in category P (punctuation).
The ASCII symbols in category S (dollar, plus, angle brackets, equals, caret,
backquote, bar, tilde) are not punctuation for unicode.IsPunct. -/
def punctCodes : List Nat :=
  [33, 34, 35, 37, 38, 39, 40, 41, 42, 44, 45, 46, 47,
   58, 59, 63, 64, 91, 92, 93, 95, 123, 125]

/-- ASCII restriction of unicode.IsPunct. -/
def isPunctU (c : Char) : Bool := punctCodes.contains c.toNat

/-- The apostrophe character. -/
def apos : Char := Char.ofNat 39

/-- The rune classifier passed to strings.FieldsFunc in correctSpelling:
a separator is a space, or punctuation other than the apostrophe. -/
def isSepChar (c : Char) : Bool := isSpaceU c || (isPunctU c && !(c = apos))

/-- ASCII restriction of unicode.IsLetter. -/
def isLetterU (c : Char) : Bool :=
  ('a' ≤ c && c ≤ 'z') || ('A' ≤ c && c ≤ 'Z')

/-- ASCII restriction of unicode.IsDigit and unicode.IsNumber (they agree
on ASCII: the digits 0 to 9). -/
def isDigitU (c : Char) : Bool := '0' ≤ c && c ≤ '9'

/-- ASCII restriction of unicode.IsUpper. -/
def isUpperU (c : Char) : Bool := 'A' ≤ c && c ≤ 'Z'

/-- TrieNode from main.go: a word-end marker and a child map keyed by rune.
The Go map is modelled as a function to Option. -/
inductive TrieNode : Type where
  | mk : Bool → (Char → Option TrieNode) → TrieNode

/-- newTrieNode from main.go: empty child map, word-end false. -/
def emptyTrieNode : TrieNode := .mk false (fun _ => none)

/-- Trie.insert from main.go: walk the word, creating missing children,
and mark the final node as a word end. -/
def insertT : TrieNode → List Char → TrieNode
  | .mk _ ch, [] => .mk true ch
  | .mk e ch, c :: cs =>
      let child := match ch c with
        | some t => t
        | none => emptyTrieNode
      .mk e (fun c2 => if c2 = c then some (insertT child cs) else ch c2)

/-- Trie.search from main.go: walk the word and report the word-end flag,
failing when a child is missing. -/
def searchT : TrieNode → List Char → Bool
  | .mk e _, [] => e
  | .mk _ ch, c :: cs =>
      match ch c with
      | some t => searchT t cs
      | none => false

/-- Loading a dictionary is a sequence of insert calls starting from the
empty trie (loadDictionary in main.go, with normalisation done by the
caller as in the source). -/
def buildTrie (ws : List (List Char)) : TrieNode :=
  ws.foldl insertT emptyTrieNode

/-- Candidate from main.go: a word, the edit distance at which it was
found, and its score. -/
structure Cand where
  word : List Char
  dist : Nat
  score : Int
deriving DecidableEq

/-- MAX_CANDIDATES from main.go. -/
def MAX_CANDIDATES : Nat := 10

/-- The fixed common-words set of getWordScore in main.go. -/
def commonWords : List (List Char) :=
  [['t','h','e'], ['i','s'], ['a'], ['a','n'], ['a','n','d'],
   ['a','r','e'], ['a','s'], ['a','t'], ['b','e'], ['b','u','t'],
   ['b','y'], ['f','o','r'], ['i','f'], ['i','n'], ['i','n','t','o'],
   ['i','t'], ['n','o'], ['n','o','t'], ['o','f'], ['o','n'],
   ['o','r'], ['s','u','c','h'], ['t','h','a','t'], ['t','h','e','i','r'], ['t','h','e','n'],
   ['t','h','e','r','e'], ['t','h','e','s','e'], ['t','h','e','y'], ['t','h','i','s'], ['t','o'],
   ['w','a','s'], ['w','i','l','l'], ['w','i','t','h'], ['h','e'], ['s','h','e'],
   ['s','o','m','e'], ['t','e','s','t'], ['h','a','v','e'], ['h','a','s'], ['h','a','d'],
   ['d','o'], ['d','o','e','s'], ['d','i','d'], ['c','a','n'], ['c','o','u','l','d'],
   ['w','o','u','l','d'], ['s','h','o','u','l','d'], ['m','a','y'], ['m','i','g','h','t'],
   ['s','e','n','t','e','n','c','e'], ['t','y','p','o'], ['c','h','e','c','k'], ['s','p','e','l','l'], ['c','h','e','c','k','e','r']]

/-- abs from main.go. -/
def absI (n : Int) : Int := if n < 0 then -n else n

/-- getWordScore from main.go.  The frequency map is a total function with
default 0, as a Go map read. -/
def getWordScore (freq : List Char → Int) (word : List Char) (originalLen : Nat) : Int :=
  let score := freq word
  let score := if score = 0 then 1 else score
  let lenDiff := absI ((word.length : Int) - (originalLen : Int))
  let score := if lenDiff = 0 then score + 100 else score - lenDiff * 10
  let score := score - (word.length : Int)
  if commonWords.contains word then score + 200 else score

/-- The lowercase alphabet a..z iterated by the distance-1 loops. -/
def alphabet : List Char := (List.range 26).map (fun k => Char.ofNat (97 + k))

/-- Every second letter a, c, e, .., y (the distance-2 substitution loop
steps by 2). -/
def alphStep2 : List Char := (List.range 13).map (fun k => Char.ofNat (97 + 2 * k))

/-- Every third letter a, d, g, .., y (generateAllEdits1 steps by 3). -/
def alphStep3 : List Char := (List.range 9).map (fun k => Char.ofNat (97 + 3 * k))

/-- word[:i] + word[i+1:]. -/
def deleteAt (w : List Char) (i : Nat) : List Char := w.take i ++ w.drop (i + 1)

/-- word[:i] + word[i+1] + word[i] + word[i+2:]. -/
def transposeAt (w : List Char) (i : Nat) : List Char :=
  w.take i ++ [w.getD (i + 1) ' ', w.getD i ' '] ++ w.drop (i + 2)

/-- word[:i] + c + word[i+1:]. -/
def substAt (w : List Char) (i : Nat) (c : Char) : List Char :=
  w.take i ++ [c] ++ w.drop (i + 1)

/-- word[:i] + c + word[i:]. -/
def insertAt (w : List Char) (i : Nat) (c : Char) : List Char :=
  w.take i ++ [c] ++ w.drop i

/-- Deletion pass of findCandidatesWithDistance (step 1). -/
def delCands (dict : TrieNode) (freq : List Char → Int) (w : List Char) : List Cand :=
  (List.range w.length).filterMap (fun i =>
    let d := deleteAt w i
    if searchT dict d then some ⟨d, 1, getWordScore freq d (w.length - 1)⟩ else none)

/-- Transposition pass of findCandidatesWithDistance (step 2). -/
def transCands (dict : TrieNode) (freq : List Char → Int) (w : List Char) : List Cand :=
  (List.range (w.length - 1)).filterMap (fun i =>
    let tr := transposeAt w i
    if searchT dict tr then some ⟨tr, 1, getWordScore freq tr w.length⟩ else none)

/-- Substitution pass of findCandidatesWithDistance (step 3). -/
def subCands (dict : TrieNode) (freq : List Char → Int) (w : List Char) : List Cand :=
  (List.range w.length).flatMap (fun i =>
    alphabet.filterMap (fun c =>
      if c ≠ w.getD i ' ' then
        (let s := substAt w i c
         if searchT dict s then some ⟨s, 1, getWordScore freq s w.length⟩ else none)
      else none))

/-- Insertion pass of findCandidatesWithDistance (step 4). -/
def insCands (dict : TrieNode) (freq : List Char → Int) (w : List Char) : List Cand :=
  (List.range (w.length + 1)).flatMap (fun i =>
    alphabet.filterMap (fun c =>
      let s := insertAt w i c
      if searchT dict s then some ⟨s, 1, getWordScore freq s (w.length + 1)⟩ else none))

/-- The four distance-1 passes in source order. -/
def d1Cands (dict : TrieNode) (freq : List Char → Int) (w : List Char) : List Cand :=
  delCands dict freq w ++ transCands dict freq w ++ subCands dict freq w ++ insCands dict freq w

/-- generateAllEdits1 from main.go: all deletions, all transpositions, and
substitutions over every third letter; the intermediate strings are not
checked against the dictionary. -/
def generateAllEdits1 (w : List Char) : List (List Char) :=
  ((List.range w.length).map (fun i => deleteAt w i))
  ++ ((List.range (w.length - 1)).map (fun i => transposeAt w i))
  ++ ((List.range w.length).flatMap (fun i => alphStep3.map (fun c => substAt w i c)))

/-- containsWord from main.go. -/
def containsWord (cands : List Cand) (w : List Char) : Bool :=
  cands.any (fun c => c.word == w)

/-- The inner attempts of the distance-2 loop for one edit1 string, in
source order: for each position, the deletion and then the sampled
substitutions. -/
def attemptsFor (e1 : List Char) : List (List Char) :=
  (List.range e1.length).flatMap (fun i =>
    deleteAt e1 i :: alphStep2.map (fun c => substAt e1 i c))

/-- The distance-2 append loop over one list of attempt strings: a hit not
already present is appended with distance 2, and the loop returns as soon
as the candidate count reaches MAX_CANDIDATES. -/
def d2Scan (dict : TrieNode) (freq : List Char → Int) :
    List (List Char) → List Cand → List Cand
  | [], cands => cands
  | s :: rest, cands =>
      if searchT dict s && !containsWord cands s then
        (let cands2 := cands ++ [⟨s, 2, getWordScore freq s s.length⟩]
         if MAX_CANDIDATES ≤ cands2.length then cands2 else d2Scan dict freq rest cands2)
      else d2Scan dict freq rest cands

/-- The outer distance-2 loop over the edit1 strings: an edit1 string that
is already a candidate word is skipped, otherwise its attempts are
scanned; the early return on reaching MAX_CANDIDATES propagates. -/
def d2Outer (dict : TrieNode) (freq : List Char → Int) :
    List (List Char) → List Cand → List Cand
  | [], cands => cands
  | e1 :: rest, cands =>
      if containsWord cands e1 then d2Outer dict freq rest cands
      else
        (let cands2 := d2Scan dict freq (attemptsFor e1) cands
         if MAX_CANDIDATES ≤ cands2.length then cands2 else d2Outer dict freq rest cands2)

/-- Comparator of the pre-truncation sort in findCandidatesWithDistance:
descending score. -/
def scoreGE (a b : Cand) : Prop := b.score ≤ a.score

instance : DecidableRel scoreGE := fun a b => by unfold scoreGE; infer_instance

/-- findCandidatesWithDistance from main.go. -/
def findCandidatesWithDistance (dict : TrieNode) (freq : List Char → Int)
    (w : List Char) (maxDistance : Nat) : List Cand :=
  let cands := d1Cands dict freq w
  if MAX_CANDIDATES / 2 < cands.length then
    (List.insertionSort scoreGE cands).take (MAX_CANDIDATES / 2)
  else if 2 ≤ maxDistance then
    d2Outer dict freq (generateAllEdits1 w) cands
  else cands

/-- The full candidate list assembled by findClosestMatch: the distance-1
call, extended by the distance-2 call when fewer than 3 candidates were
found. -/
def allCandidates (dict : TrieNode) (freq : List Char → Int) (w : List Char) : List Cand :=
  let cands := findCandidatesWithDistance dict freq w 1
  if cands.length < 3 then cands ++ findCandidatesWithDistance dict freq w 2 else cands

/-- Comparator of the final sort in findClosestMatch: ascending distance,
then descending score. -/
def candLE (a b : Cand) : Prop := a.dist < b.dist ∨ (a.dist = b.dist ∧ b.score ≤ a.score)

instance : DecidableRel candLE := fun a b => by unfold candLE; infer_instance

instance : IsTotal Cand candLE := by
  constructor
  intro a b
  unfold candLE
  omega

instance : IsTrans Cand candLE := by
  constructor
  intro a b c hab hbc
  unfold candLE at *
  omega

/-- findClosestMatch from main.go. -/
def findClosestMatch (dict : TrieNode) (freq : List Char → Int) (w : List Char) : List Char :=
  if searchT dict w then w
  else
    let cands := allCandidates dict freq w
    if cands.length = 0 then w
    else
      match List.insertionSort candLE cands with
      | [] => w
      | c :: _ => c.word

/-- The all-zero frequency map (every lookup misses). -/
def freqZero : List Char → Int := fun _ => 0

/-- A concrete dictionary exercising the distance-2 candidate pass. -/
def dictC1 : TrieNode := buildTrie
  [['a','a','b'], ['c','a'], ['e','a'], ['g','a'], ['i','a'], ['k','a'],
   ['m','a'], ['o','a'], ['q','a'], ['s','a']]

/-- The query word aaa. -/
def wordAAA : List Char := ['a','a','a']

/-- A dictionary containing only the word the. -/
def dictThe : TrieNode := buildTrie [['t','h','e']]

/-- The query word thhe. -/
def wordThhe : List Char := ['t','h','h','e']

/-- The candidate the produced for the query thhe. -/
def candidateThe : Cand := ⟨['t','h','e'], 1, 298⟩

/-- Modelled from the claim (spec 4.3): frequency weight with default 1,
plus 100 when the candidate length equals the length of the original query
word, else minus 10 times the absolute length difference, minus the
candidate length, plus 200 for candidates in the common-words set. -/
def claimScore (freq : List Char → Int) (cand : List Char) (w : List Char) : Int :=
  (if freq cand = 0 then 1 else freq cand)
  + (if cand.length = w.length then (100 : Int)
     else -(10 * absI ((cand.length : Int) - (w.length : Int))))
  - cand.length
  + (if commonWords.contains cand then 200 else 0)

/-- The score every generated candidate actually receives: the length
bonus always fires because each call site passes the candidate length
itself as the original length. -/
def effScore (freq : List Char → Int) (cand : List Char) : Int :=
  (if freq cand = 0 then 1 else freq cand) + 100 - cand.length
  + (if commonWords.contains cand then 200 else 0)

/-- Letter-or-digit test of the punctuation stripping loops. -/
def isLetterOrDigit (c : Char) : Bool := isLetterU c || isDigitU c

/-- The leading-punctuation loop of correctSpelling: characters that are
neither letters nor digits accumulate into the prefix until the loop
breaks at the first letter or digit, when the core is cut there.  When the
loop runs off the end without a break, the core keeps its original value
(the whole token), exactly as in the source. -/
def goPreAux (orig : List Char) : List Char → List Char → (List Char × List Char)
  | [], pre => (pre, orig)
  | c :: rest, pre =>
      if !isLetterOrDigit c then goPreAux orig rest (pre ++ [c])
      else (pre, c :: rest)

/-- Result of the leading-punctuation loop: the pair (prefix, core). -/
def goPre (w : List Char) : List Char × List Char := goPreAux w w []

/-- Characters removed by the trailing-punctuation loop: neither letter
nor digit nor apostrophe. -/
def suffixStrippable (c : Char) : Bool := !isLetterOrDigit c && !(c = apos)

/-- The trailing-punctuation loop of correctSpelling: trailing strippable
characters move from the core into the suffix; the pair is
(core, suffix). -/
def goSuf (w : List Char) : List Char × List Char :=
  ((w.reverse.dropWhile suffixStrippable).reverse,
   (w.reverse.takeWhile suffixStrippable).reverse)

/-- isNumber from main.go. -/
def isNumberL (s : List Char) : Bool := s.all isDigitU

/-- isAllUppercase from main.go: no letter is lowercase. -/
def isAllUppercase (s : List Char) : Bool := s.all (fun c => !isLetterU c || isUpperU c)

/-- strings.ToLower, on ASCII. -/
def toLowerL (s : List Char) : List Char := s.map Char.toLower

/-- strings.ToUpper, on ASCII. -/
def toUpperL (s : List Char) : List Char := s.map Char.toUpper

/-- Uppercasing of the first character only. -/
def upperFirst : List Char → List Char
  | [] => []
  | c :: r => Char.toUpper c :: r

/-- The case-restoration step of correctSpelling: an all-caps core
uppercases the whole correction, a capitalized core uppercases only the
first character, and otherwise the correction is kept as produced. -/
def applyCasePattern (cleanWord corrected : List Char) : List Char :=
  if isAllUppercase cleanWord then toUpperL corrected
  else if isUpperU (cleanWord.headD ' ') then upperFirst corrected
  else corrected

/-- The per-token body of the correctSpelling loop: punctuation
splitting, the short/numeric skip, the dictionary check, correction and
case restoration.  The fragment written for a token depends only on the
token text, the dictionary and the frequency map. -/
def emitToken (dict : TrieNode) (freq : List Char → Int) (word : List Char) : List Char :=
  let pc := goPre word
  let cs := goSuf pc.2
  let cleanWord := cs.1
  if cleanWord.length ≤ 2 || isNumberL cleanWord then word
  else
    let lowerWord := toLowerL cleanWord
    if searchT dict lowerWord then word
    else
      let corrected := findClosestMatch dict freq lowerWord
      let corrected2 :=
        if !(corrected = lowerWord) then applyCasePattern cleanWord corrected
        else cleanWord
      pc.1 ++ corrected2 ++ cs.2

/-- Fuel-driven splitter behind fieldsFunc (structural recursion keeps the
definition executable in the kernel). -/
def fieldsFuncAux (f : Char → Bool) : Nat → List Char → List (List Char)
  | 0, _ => []
  | fuel + 1, s =>
      match s.dropWhile f with
      | [] => []
      | c :: rest =>
          (c :: rest).takeWhile (fun x => !f x) ::
            fieldsFuncAux f fuel ((c :: rest).dropWhile (fun x => !f x))

/-- strings.FieldsFunc: the maximal runs of non-separator characters, in
order. -/
def fieldsFunc (f : Char → Bool) (s : List Char) : List (List Char) :=
  fieldsFuncAux f (s.length + 1) s

/-- strings.Index on character lists: the first position where the pattern
occurs, if any. -/
def strIndex (s pat : List Char) : Option Nat :=
  if pat.isPrefixOf s then some 0
  else
    match s with
    | [] => none
    | _ :: t => (strIndex t pat).map (fun n => n + 1)

/-- The main loop of correctSpelling over the extracted words.  The suffix
of the text from lastPos onwards is carried instead of the index lastPos:
every use of lastPos in the source reads text[lastPos:].  A word that is
not found is skipped (the continue branch); otherwise the text before the
occurrence is copied, the token fragment is emitted, and the position
advances past the word. -/
def csLoop (dict : TrieNode) (freq : List Char → Int) :
    List (List Char) → List Char → List Char
  | [], rem => rem
  | w :: ws, rem =>
      match strIndex rem w with
      | none => csLoop dict freq ws rem
      | some i =>
          rem.take i ++ emitToken dict freq w ++ csLoop dict freq ws (rem.drop (i + w.length))

/-- correctSpelling from main.go. -/
def correctSpelling (dict : TrieNode) (freq : List Char → Int) (text : List Char) : List Char :=
  let words := fieldsFunc isSepChar text
  if words.length = 0 then text
  else csLoop dict freq words text

/-- A dictionary containing only the word hello. -/
def dictHello : TrieNode := buildTrie [['h','e','l','l','o']]

/-- The token Helllo. -/
def wordHelllo : List Char := ['H','e','l','l','l','o']

/-- The token HELLLO. -/
def wordHELLLO : List Char := ['H','E','L','L','L','O']

/-- A token of three apostrophes. -/
def word3Apos : List Char := [apos, apos, apos]

/-- Modelled from the spec (4.4 step 1): the leading prefix of non-letter
non-digit characters of a token. -/
def specPre (w : List Char) : List Char := w.takeWhile (fun c => !isLetterOrDigit c)

/-- Modelled from the spec (4.4 step 1): the clean core after stripping
the leading prefix and the trailing strippable characters. -/
def specCore (w : List Char) : List Char :=
  ((w.dropWhile (fun c => !isLetterOrDigit c)).reverse.dropWhile suffixStrippable).reverse

/-- Modelled from the spec (4.4 step 1): the trailing suffix stripped from
the token after the leading prefix. -/
def specSuf (w : List Char) : List Char :=
  ((w.dropWhile (fun c => !isLetterOrDigit c)).reverse.takeWhile suffixStrippable).reverse

/-- A run of separator characters only: the inter-token text of
correctSpelling. -/
def SepRun (s : List Char) : Prop := ∀ c ∈ s, isSepChar c = true

/-- A token as produced by strings.FieldsFunc: non-empty, and free of
separator characters. -/
def TokRun (w : List Char) : Prop := w ≠ [] ∧ ∀ c ∈ w, isSepChar c = false

/-- A decomposition of a text into alternating tokens and following
separator runs: each token is a genuine token, each separator run holds
only separators, and the separator run after every token but the last is
non-empty (tokens are maximal runs). -/
def WFTokens : List (List Char × List Char) → Prop
  | [] => True
  | (w, s) :: rest => TokRun w ∧ SepRun s ∧ (rest = [] ∨ s ≠ []) ∧ WFTokens rest

/-- Reassembly of a leading separator run and token/separator pairs into a
text. -/
def interleave : List Char → List (List Char × List Char) → List Char
  | s0, [] => s0
  | s0, (w, s) :: rest => s0 ++ w ++ interleave s rest

instance : DecidablePred SepRun := fun s => by
  unfold SepRun
  infer_instance

instance : DecidablePred TokRun := fun w => by
  unfold TokRun
  infer_instance

/-- A dictionary whose words are not all plain letters. -/
def dictC8 : TrieNode := buildTrie
  [[apos,'a','b','c'], ['b',apos,'a','b','c'], ['c',apos,'a','b','c'], ['a','b','c','d']]

/-- The one-token text x-apostrophe-abc. -/
def textC8 : List Char := ['x',apos,'a','b','c']

theorem searchT_emptyTrieNode (w : List Char) : searchT emptyTrieNode w = false := by
  cases w <;> rfl

theorem searchT_insertT_self : ∀ (w : List Char) (t : TrieNode), searchT (insertT t w) w = true
  | [], .mk _ _ => rfl
  | c :: cs, .mk e ch => by
      simp only [insertT, searchT, if_pos rfl]
      exact searchT_insertT_self cs _

theorem searchT_insertT_ne : ∀ (w v : List Char) (t : TrieNode), v ≠ w →
    searchT (insertT t w) v = searchT t v
  | [], [], _, hne => absurd rfl hne
  | [], _ :: _, .mk _ _, _ => rfl
  | _ :: _, [], .mk _ _, _ => rfl
  | c :: cs, d :: ds, .mk e ch, hne => by
      by_cases hdc : d = c
      · subst hdc
        have hds : ds ≠ cs := by
          intro h
          exact hne (by rw [h])
        simp only [insertT, searchT, eq_self_iff_true, if_true]
        rw [searchT_insertT_ne cs ds _ hds]
        cases hch : ch d
        · simp only [hch, searchT_emptyTrieNode]
        · simp only [hch]
      · simp only [insertT, searchT, if_neg hdc]

theorem searchT_foldl_insertT : ∀ (ws : List (List Char)) (t : TrieNode) (w : List Char),
    searchT (List.foldl insertT t ws) w = (searchT t w || decide (w ∈ ws))
  | [], t, w => by simp
  | u :: ws, t, w => by
      rw [List.foldl_cons, searchT_foldl_insertT ws (insertT t u) w]
      by_cases hwu : w = u
      · subst hwu
        simp [searchT_insertT_self]
      · rw [searchT_insertT_ne u w t hwu]
        simp [hwu]

/-- C4: after any finite sequence of insertions starting from the empty
trie, search returns true exactly for the words that were inserted with
the same spelling; in particular a proper prefix of an inserted word that
was never itself inserted is not found. -/
theorem claim_C4_trie_membership (ws : List (List Char)) (w : List Char) :
    searchT (buildTrie ws) w = true ↔ w ∈ ws := by
  unfold buildTrie
  rw [searchT_foldl_insertT ws emptyTrieNode w, searchT_emptyTrieNode]
  simp

theorem deleteAt_length {w : List Char} {i : Nat} (h : i < w.length) :
    (deleteAt w i).length = w.length - 1 := by
  unfold deleteAt
  simp only [List.length_append, List.length_take, List.length_drop]
  omega

theorem transposeAt_length {w : List Char} {i : Nat} (h : i < w.length - 1) :
    (transposeAt w i).length = w.length := by
  unfold transposeAt
  simp only [List.length_append, List.length_take, List.length_drop, List.length_cons,
    List.length_nil]
  omega

theorem substAt_length {w : List Char} {i : Nat} {c : Char} (h : i < w.length) :
    (substAt w i c).length = w.length := by
  unfold substAt
  simp only [List.length_append, List.length_take, List.length_drop, List.length_cons,
    List.length_nil]
  omega

theorem insertAt_length {w : List Char} {i : Nat} {c : Char} (h : i ≤ w.length) :
    (insertAt w i c).length = w.length + 1 := by
  unfold insertAt
  simp only [List.length_append, List.length_take, List.length_drop, List.length_cons,
    List.length_nil]
  omega

theorem getWordScore_own_length (freq : List Char → Int) (wd : List Char) :
    getWordScore freq wd wd.length = effScore freq wd := by
  unfold getWordScore effScore absI
  simp
  split <;> omega

theorem mem_delCands {dict : TrieNode} {freq : List Char → Int} {w : List Char} {c : Cand}
    (h : c ∈ delCands dict freq w) :
    searchT dict c.word = true ∧ c.dist = 1 ∧ c.score = effScore freq c.word := by
  unfold delCands at h
  rw [List.mem_filterMap] at h
  obtain ⟨i, hi, heq⟩ := h
  rw [List.mem_range] at hi
  by_cases hs : searchT dict (deleteAt w i) = true
  · simp only [hs, if_true, Option.some.injEq] at heq
    subst heq
    refine ⟨hs, rfl, ?_⟩
    show getWordScore freq (deleteAt w i) (w.length - 1) = _
    rw [← deleteAt_length hi, getWordScore_own_length]
  · simp only [hs, if_false] at heq
    cases heq

theorem mem_transCands {dict : TrieNode} {freq : List Char → Int} {w : List Char} {c : Cand}
    (h : c ∈ transCands dict freq w) :
    searchT dict c.word = true ∧ c.dist = 1 ∧ c.score = effScore freq c.word := by
  unfold transCands at h
  rw [List.mem_filterMap] at h
  obtain ⟨i, hi, heq⟩ := h
  rw [List.mem_range] at hi
  by_cases hs : searchT dict (transposeAt w i) = true
  · simp only [hs, if_true, Option.some.injEq] at heq
    subst heq
    refine ⟨hs, rfl, ?_⟩
    show getWordScore freq (transposeAt w i) w.length = _
    rw [← transposeAt_length hi, getWordScore_own_length]
  · simp only [hs, if_false] at heq
    cases heq

theorem mem_subCands {dict : TrieNode} {freq : List Char → Int} {w : List Char} {c : Cand}
    (h : c ∈ subCands dict freq w) :
    searchT dict c.word = true ∧ c.dist = 1 ∧ c.score = effScore freq c.word := by
  unfold subCands at h
  rw [List.mem_flatMap] at h
  obtain ⟨i, hi, h2⟩ := h
  rw [List.mem_range] at hi
  rw [List.mem_filterMap] at h2
  obtain ⟨a, _, heq⟩ := h2
  by_cases hne : a ≠ w.getD i ' '
  · rw [if_pos hne] at heq
    by_cases hs : searchT dict (substAt w i a) = true
    · rw [if_pos hs] at heq
      injection heq with h3
      subst h3
      refine ⟨hs, rfl, ?_⟩
      show getWordScore freq (substAt w i a) w.length = _
      rw [← substAt_length hi, getWordScore_own_length]
    · rw [if_neg hs] at heq
      cases heq
  · rw [if_neg hne] at heq
    cases heq

theorem mem_insCands {dict : TrieNode} {freq : List Char → Int} {w : List Char} {c : Cand}
    (h : c ∈ insCands dict freq w) :
    searchT dict c.word = true ∧ c.dist = 1 ∧ c.score = effScore freq c.word := by
  unfold insCands at h
  rw [List.mem_flatMap] at h
  obtain ⟨i, hi, h2⟩ := h
  rw [List.mem_range] at hi
  rw [List.mem_filterMap] at h2
  obtain ⟨a, _, heq⟩ := h2
  by_cases hs : searchT dict (insertAt w i a) = true
  · simp only [hs, if_true, Option.some.injEq] at heq
    subst heq
    refine ⟨hs, rfl, ?_⟩
    show getWordScore freq (insertAt w i a) (w.length + 1) = _
    rw [← insertAt_length (by omega : i ≤ w.length), getWordScore_own_length]
  · simp only [hs, if_false] at heq
    cases heq

theorem mem_d1Cands {dict : TrieNode} {freq : List Char → Int} {w : List Char} {c : Cand}
    (h : c ∈ d1Cands dict freq w) :
    searchT dict c.word = true ∧ c.dist = 1 ∧ c.score = effScore freq c.word := by
  unfold d1Cands at h
  rcases List.mem_append.1 h with h1 | h1
  · rcases List.mem_append.1 h1 with h2 | h2
    · rcases List.mem_append.1 h2 with h3 | h3
      · exact mem_delCands h3
      · exact mem_transCands h3
    · exact mem_subCands h2
  · exact mem_insCands h1

theorem mem_d2Scan {dict : TrieNode} {freq : List Char → Int} :
    ∀ (ss : List (List Char)) (cands : List Cand) (c : Cand),
    c ∈ d2Scan dict freq ss cands →
    c ∈ cands ∨ (searchT dict c.word = true ∧ c.dist = 2 ∧ c.score = effScore freq c.word)
  | [], cands, c, h => Or.inl h
  | s :: rest, cands, c, h => by
      simp only [d2Scan] at h
      by_cases hcond : (searchT dict s && !containsWord cands s) = true
      · rw [if_pos hcond] at h
        have hs : searchT dict s = true := by
          have h2 := hcond
          rw [Bool.and_eq_true] at h2
          exact h2.1
        have hnew : ∀ x : Cand, x = ⟨s, 2, getWordScore freq s s.length⟩ →
            searchT dict x.word = true ∧ x.dist = 2 ∧ x.score = effScore freq x.word := by
          rintro x rfl
          exact ⟨hs, rfl, getWordScore_own_length freq s⟩
        by_cases hcap : MAX_CANDIDATES ≤ (cands ++ [(⟨s, 2, getWordScore freq s s.length⟩ : Cand)]).length
        · rw [if_pos hcap] at h
          rcases List.mem_append.1 h with h1 | h1
          · exact Or.inl h1
          · exact Or.inr (hnew c (List.mem_singleton.1 h1))
        · rw [if_neg hcap] at h
          rcases mem_d2Scan rest _ c h with h1 | h1
          · rcases List.mem_append.1 h1 with h2 | h2
            · exact Or.inl h2
            · exact Or.inr (hnew c (List.mem_singleton.1 h2))
          · exact Or.inr h1
      · rw [if_neg hcond] at h
        exact mem_d2Scan rest cands c h

theorem mem_d2Outer {dict : TrieNode} {freq : List Char → Int} :
    ∀ (es : List (List Char)) (cands : List Cand) (c : Cand),
    c ∈ d2Outer dict freq es cands →
    c ∈ cands ∨ (searchT dict c.word = true ∧ c.dist = 2 ∧ c.score = effScore freq c.word)
  | [], cands, c, h => Or.inl h
  | e1 :: rest, cands, c, h => by
      simp only [d2Outer] at h
      by_cases hskip : containsWord cands e1 = true
      · rw [if_pos hskip] at h
        exact mem_d2Outer rest cands c h
      · rw [if_neg hskip] at h
        by_cases hcap : MAX_CANDIDATES ≤ (d2Scan dict freq (attemptsFor e1) cands).length
        · rw [if_pos hcap] at h
          exact mem_d2Scan _ _ _ h
        · rw [if_neg hcap] at h
          rcases mem_d2Outer rest _ c h with h1 | h1
          · exact mem_d2Scan _ _ _ h1
          · exact Or.inr h1

theorem mem_fcwd {dict : TrieNode} {freq : List Char → Int} {w : List Char} {d : Nat} {c : Cand}
    (h : c ∈ findCandidatesWithDistance dict freq w d) :
    searchT dict c.word = true ∧ (c.dist = 1 ∨ c.dist = 2) ∧ c.score = effScore freq c.word := by
  simp only [findCandidatesWithDistance] at h
  split at h
  · have h1 : c ∈ List.insertionSort scoreGE (d1Cands dict freq w) :=
      (List.take_sublist _ _).subset h
    have h2 : c ∈ d1Cands dict freq w := (List.mem_insertionSort scoreGE).1 h1
    obtain ⟨ha, hb, hc⟩ := mem_d1Cands h2
    exact ⟨ha, Or.inl hb, hc⟩
  · split at h
    · rcases mem_d2Outer _ _ _ h with h1 | h1
      · obtain ⟨ha, hb, hc⟩ := mem_d1Cands h1
        exact ⟨ha, Or.inl hb, hc⟩
      · obtain ⟨ha, hb, hc⟩ := h1
        exact ⟨ha, Or.inr hb, hc⟩
    · obtain ⟨ha, hb, hc⟩ := mem_d1Cands h
      exact ⟨ha, Or.inl hb, hc⟩

theorem mem_allCandidates {dict : TrieNode} {freq : List Char → Int} {w : List Char} {c : Cand}
    (h : c ∈ allCandidates dict freq w) :
    searchT dict c.word = true ∧ (c.dist = 1 ∨ c.dist = 2) ∧ c.score = effScore freq c.word := by
  simp only [allCandidates] at h
  split at h
  · rcases List.mem_append.1 h with h1 | h1
    · exact mem_fcwd h1
    · exact mem_fcwd h1
  · exact mem_fcwd h

theorem d2Scan_length_le {dict : TrieNode} {freq : List Char → Int} :
    ∀ (ss : List (List Char)) (cands : List Cand),
    cands.length < MAX_CANDIDATES → (d2Scan dict freq ss cands).length ≤ MAX_CANDIDATES
  | [], cands, h => Nat.le_of_lt h
  | s :: rest, cands, h => by
      simp only [d2Scan]
      by_cases hcond : (searchT dict s && !containsWord cands s) = true
      · rw [if_pos hcond]
        by_cases hcap : MAX_CANDIDATES ≤ (cands ++ [(⟨s, 2, getWordScore freq s s.length⟩ : Cand)]).length
        · rw [if_pos hcap]
          simp only [List.length_append, List.length_cons, List.length_nil]
          omega
        · rw [if_neg hcap]
          exact d2Scan_length_le rest _ (by omega)
      · rw [if_neg hcond]
        exact d2Scan_length_le rest cands h

theorem d2Outer_length_le {dict : TrieNode} {freq : List Char → Int} :
    ∀ (es : List (List Char)) (cands : List Cand),
    cands.length < MAX_CANDIDATES → (d2Outer dict freq es cands).length ≤ MAX_CANDIDATES
  | [], cands, h => Nat.le_of_lt h
  | e1 :: rest, cands, h => by
      simp only [d2Outer]
      by_cases hskip : containsWord cands e1 = true
      · rw [if_pos hskip]
        exact d2Outer_length_le rest cands h
      · rw [if_neg hskip]
        by_cases hcap : MAX_CANDIDATES ≤ (d2Scan dict freq (attemptsFor e1) cands).length
        · rw [if_pos hcap]
          exact d2Scan_length_le _ _ h
        · rw [if_neg hcap]
          exact d2Outer_length_le rest _ (by omega)

theorem fcwd_length_le (dict : TrieNode) (freq : List Char → Int) (w : List Char) (d : Nat) :
    (findCandidatesWithDistance dict freq w d).length ≤ MAX_CANDIDATES := by
  simp only [findCandidatesWithDistance]
  split
  · exact le_trans (List.length_take_le _ _) (Nat.div_le_self _ _)
  · split
    · refine d2Outer_length_le _ _ ?_
      simp only [MAX_CANDIDATES] at *
      omega
    · simp only [MAX_CANDIDATES] at *
      omega

theorem allCandidates_length_le (dict : TrieNode) (freq : List Char → Int) (w : List Char) :
    (allCandidates dict freq w).length ≤ MAX_CANDIDATES + 2 := by
  simp only [allCandidates]
  split
  · rw [List.length_append]
    have h1 := fcwd_length_le dict freq w 2
    omega
  · have h1 := fcwd_length_le dict freq w 1
    omega

theorem fcwd_one_dist {dict : TrieNode} {freq : List Char → Int} {w : List Char} {c : Cand}
    (h : c ∈ findCandidatesWithDistance dict freq w 1) : c.dist = 1 := by
  simp only [findCandidatesWithDistance] at h
  split at h
  · have h1 : c ∈ List.insertionSort scoreGE (d1Cands dict freq w) :=
      (List.take_sublist _ _).subset h
    exact (mem_d1Cands ((List.mem_insertionSort scoreGE).1 h1)).2.1
  · split at h
    · omega
    · exact (mem_d1Cands h).2.1

theorem fcwd_one_eq_d1 {dict : TrieNode} {freq : List Char → Int} {w : List Char}
    (h : ¬(MAX_CANDIDATES / 2 < (d1Cands dict freq w).length)) :
    findCandidatesWithDistance dict freq w 1 = d1Cands dict freq w := by
  simp only [findCandidatesWithDistance]
  rw [if_neg h, if_neg (by omega : ¬(2 ≤ 1))]

theorem fcwd_one_length_of_gt {dict : TrieNode} {freq : List Char → Int} {w : List Char}
    (h : MAX_CANDIDATES / 2 < (d1Cands dict freq w).length) :
    (findCandidatesWithDistance dict freq w 1).length = MAX_CANDIDATES / 2 := by
  simp only [findCandidatesWithDistance]
  rw [if_pos h, List.length_take, List.length_insertionSort]
  omega

/-- C1 (amended): each of the two generation calls returns at most
MAX_CANDIDATES candidates (stopping early at its cap), and the full
candidate-generation phase of a correction returns at most
MAX_CANDIDATES + 2 candidates in total; the stated bound MAX_CANDIDATES is
exceeded because the distance-2 call regenerates the fewer-than-3
distance-1 candidates already collected. -/
theorem claim_C1_generation_cap (dict : TrieNode) (freq : List Char → Int) (w : List Char) :
    (∀ d, (findCandidatesWithDistance dict freq w d).length ≤ MAX_CANDIDATES) ∧
    (allCandidates dict freq w).length ≤ MAX_CANDIDATES + 2 :=
  ⟨fun d => fcwd_length_le dict freq w d, allCandidates_length_le dict freq w⟩

/-- C1 counterexample: on a concrete dictionary and the query aaa, the
distance-1 pass plus the triggered distance-2 pass return 11 candidates,
exceeding MAX_CANDIDATES = 10. -/
theorem claim_C1_counterexample :
    MAX_CANDIDATES < (allCandidates dictC1 freqZero wordAAA).length := by
  decide

/-- C2 (amended): every candidate produced by the generator carries the
score frequency-weight (1 when absent) + 100 - candidate length + 200 for
common words: the length-similarity branch always awards the +100 bonus,
because each call site passes the length of the candidate itself as the
original length argument of getWordScore. -/
theorem claim_C2_score_formula (dict : TrieNode) (freq : List Char → Int) (w : List Char)
    (d : Nat) (c : Cand) (h : c ∈ findCandidatesWithDistance dict freq w d) :
    c.score = effScore freq c.word :=
  (mem_fcwd h).2.2

/-- C2 witness: the candidate the, generated for the query thhe, carries
exactly the effective score 298. -/
theorem claim_C2_witness :
    candidateThe ∈ findCandidatesWithDistance dictThe freqZero wordThhe 1 ∧
    candidateThe.score = effScore freqZero candidateThe.word :=
  ⟨by decide, claim_C2_score_formula dictThe freqZero wordThhe 1 candidateThe (by decide)⟩

/-- C2 counterexample: for the query thhe the generator produces the
deletion candidate the with score 298, but the claimed formula (length
compared against the query word) yields 188. -/
theorem claim_C2_counterexample :
    candidateThe ∈ findCandidatesWithDistance dictThe freqZero wordThhe 1 ∧
    candidateThe.score ≠ claimScore freqZero candidateThe.word wordThhe := by
  exact ⟨by decide, by decide⟩

/-- C9: the distance-2 generation pass is attempted exactly when the
distance-1 call yields fewer than 3 candidates; in that case the selector
works on the distance-1 result extended by the distance-2 call, whose
second-pass edits genuinely run; otherwise the candidate list is the
distance-1 result alone and every candidate has distance 1. -/
theorem claim_C9_distance2_trigger (dict : TrieNode) (freq : List Char → Int) (w : List Char) :
    ((findCandidatesWithDistance dict freq w 1).length < 3 →
      allCandidates dict freq w =
        findCandidatesWithDistance dict freq w 1 ++ findCandidatesWithDistance dict freq w 2 ∧
      findCandidatesWithDistance dict freq w 2 =
        d2Outer dict freq (generateAllEdits1 w) (d1Cands dict freq w)) ∧
    (3 ≤ (findCandidatesWithDistance dict freq w 1).length →
      allCandidates dict freq w = findCandidatesWithDistance dict freq w 1 ∧
      ∀ c ∈ allCandidates dict freq w, c.dist = 1) := by
  constructor
  · intro h
    have h5 : ¬(MAX_CANDIDATES / 2 < (d1Cands dict freq w).length) := by
      intro hgt
      have hlen := fcwd_one_length_of_gt hgt
      simp only [MAX_CANDIDATES] at hlen
      omega
    constructor
    · simp only [allCandidates]
      rw [if_pos h]
    · simp only [findCandidatesWithDistance]
      rw [if_neg h5, if_pos (by omega : 2 ≤ 2)]
  · intro h
    have hall : allCandidates dict freq w = findCandidatesWithDistance dict freq w 1 := by
      simp only [allCandidates]
      rw [if_neg (by omega)]
    refine ⟨hall, fun c hc => ?_⟩
    rw [hall] at hc
    exact fcwd_one_dist hc

/-- C9 witness: the query thhe yields 2 distance-1 candidates, so the
distance-2 pass is attempted and its second-pass loop runs. -/
theorem claim_C9_witness :
    allCandidates dictThe freqZero wordThhe =
      findCandidatesWithDistance dictThe freqZero wordThhe 1 ++
      findCandidatesWithDistance dictThe freqZero wordThhe 2 ∧
    findCandidatesWithDistance dictThe freqZero wordThhe 2 =
      d2Outer dictThe freqZero (generateAllEdits1 wordThhe) (d1Cands dictThe freqZero wordThhe) :=
  (claim_C9_distance2_trigger dictThe freqZero wordThhe).1 (by decide)

/-- C10: every candidate produced by the generator is an in-dictionary
word, carries distance 1 or 2, and differs from the query word whenever
the query word is absent from the dictionary. -/
theorem claim_C10_candidate_invariant (dict : TrieNode) (freq : List Char → Int) (w : List Char)
    (d : Nat) (c : Cand) (h : c ∈ findCandidatesWithDistance dict freq w d) :
    searchT dict c.word = true ∧ (c.dist = 1 ∨ c.dist = 2) ∧
    (searchT dict w = false → c.word ≠ w) := by
  obtain ⟨h1, h2, _⟩ := mem_fcwd h
  refine ⟨h1, h2, ?_⟩
  intro hw heq
  rw [heq] at h1
  rw [h1] at hw
  exact Bool.noConfusion hw

/-- C10 witness: the candidate the generated for thhe is in the
dictionary, has distance 1, and differs from the query. -/
theorem claim_C10_witness :
    searchT dictThe candidateThe.word = true ∧
    (candidateThe.dist = 1 ∨ candidateThe.dist = 2) ∧
    (searchT dictThe wordThhe = false → candidateThe.word ≠ wordThhe) :=
  claim_C10_candidate_invariant dictThe freqZero wordThhe 1 candidateThe (by decide)

/-- C3: when the query word is not in the dictionary, selection over a
non-empty candidate set returns the word of a candidate with the minimum
edit distance in the set and, among candidates at that distance, a maximal
score; a distance-2 candidate is never selected when a distance-1
candidate exists; an empty candidate set returns the query unmodified. -/
theorem claim_C3_selector (dict : TrieNode) (freq : List Char → Int) (w : List Char)
    (hw : searchT dict w = false) :
    (allCandidates dict freq w = [] → findClosestMatch dict freq w = w) ∧
    (allCandidates dict freq w ≠ [] →
      ∃ c, c ∈ allCandidates dict freq w ∧ findClosestMatch dict freq w = c.word ∧
        (∀ x ∈ allCandidates dict freq w, c.dist ≤ x.dist) ∧
        (∀ x ∈ allCandidates dict freq w, x.dist = c.dist → x.score ≤ c.score) ∧
        ((∃ x ∈ allCandidates dict freq w, x.dist = 1) → c.dist = 1)) := by
  constructor
  · intro hnil
    simp only [findClosestMatch, hw, Bool.false_eq_true, if_false]
    rw [hnil]
    simp
  · intro hne
    have hlen : ¬((allCandidates dict freq w).length = 0) := by
      intro h0
      exact hne (List.length_eq_zero.1 h0)
    cases hs : List.insertionSort candLE (allCandidates dict freq w) with
    | nil =>
        have hperm := List.perm_insertionSort candLE (allCandidates dict freq w)
        rw [hs] at hperm
        exact absurd hperm.symm.eq_nil hne
    | cons c rest =>
        have hsorted : List.Sorted candLE (List.insertionSort candLE (allCandidates dict freq w)) :=
          List.sorted_insertionSort candLE _
        rw [hs] at hsorted
        have hperm := List.perm_insertionSort candLE (allCandidates dict freq w)
        rw [hs] at hperm
        have hmemc : c ∈ allCandidates dict freq w :=
          hperm.subset (List.mem_cons_self c rest)
        have hmin : ∀ x ∈ allCandidates dict freq w, candLE c x ∨ x = c := by
          intro x hx
          rcases List.mem_cons.1 (hperm.symm.subset hx) with h1 | h1
          · exact Or.inr h1
          · exact Or.inl (List.rel_of_sorted_cons hsorted x h1)
        have hfcm : findClosestMatch dict freq w = c.word := by
          simp only [findClosestMatch, hw, Bool.false_eq_true, if_false]
          rw [if_neg hlen, hs]
        refine ⟨c, hmemc, hfcm, ?_, ?_, ?_⟩
        · intro x hx
          rcases hmin x hx with h1 | h1
          · unfold candLE at h1
            omega
          · rw [h1]
        · intro x hx hdx
          rcases hmin x hx with h1 | h1
          · unfold candLE at h1
            omega
          · rw [h1]
        · rintro ⟨x, hx, hx1⟩
          have hcd := (mem_allCandidates hmemc).2.1
          rcases hmin x hx with h1 | h1
          · unfold candLE at h1
            omega
          · rw [← h1, hx1]

/-- C3 witness: for the query thhe the selector picks the candidate the,
which attains the minimum distance 1 and the maximum score among the
distance-1 candidates. -/
theorem claim_C3_witness :
    ∃ c, c ∈ allCandidates dictThe freqZero wordThhe ∧
      findClosestMatch dictThe freqZero wordThhe = c.word ∧
      (∀ x ∈ allCandidates dictThe freqZero wordThhe, c.dist ≤ x.dist) ∧
      (∀ x ∈ allCandidates dictThe freqZero wordThhe, x.dist = c.dist → x.score ≤ c.score) ∧
      ((∃ x ∈ allCandidates dictThe freqZero wordThhe, x.dist = 1) → c.dist = 1) :=
  (claim_C3_selector dictThe freqZero wordThhe (by decide)).2 (by decide)

theorem takeWhile_append_all {p : Char → Bool} :
    ∀ {s0 : List Char}, (∀ c ∈ s0, p c = true) →
    ∀ (x : List Char), (s0 ++ x).takeWhile p = s0 ++ x.takeWhile p
  | [], _, x => rfl
  | c :: s0, h, x => by
      rw [List.cons_append, List.takeWhile_cons_of_pos (h c (List.mem_cons_self c s0))]
      rw [takeWhile_append_all (fun d hd => h d (List.mem_cons_of_mem c hd)) x]
      rfl

theorem dropWhile_append_all {p : Char → Bool} :
    ∀ {s0 : List Char}, (∀ c ∈ s0, p c = true) →
    ∀ (x : List Char), (s0 ++ x).dropWhile p = x.dropWhile p
  | [], _, x => rfl
  | c :: s0, h, x => by
      rw [List.cons_append, List.dropWhile_cons_of_pos (h c (List.mem_cons_self c s0))]
      exact dropWhile_append_all (fun d hd => h d (List.mem_cons_of_mem c hd)) x

theorem dropWhile_head_false {p : Char → Bool} :
    ∀ (s : List Char) (c : Char) (rest : List Char), s.dropWhile p = c :: rest → p c = false
  | [], _, _, h => by cases h
  | a :: t, c, rest, h => by
      by_cases ha : p a = true
      · rw [List.dropWhile_cons_of_pos ha] at h
        exact dropWhile_head_false t c rest h
      · rw [List.dropWhile_cons_of_neg ha] at h
        cases h
        exact Bool.eq_false_iff.2 ha

theorem fieldsFuncAux_congr {f : Char → Bool} :
    ∀ (fuel1 fuel2 : Nat) (s : List Char), s.length < fuel1 → s.length < fuel2 →
    fieldsFuncAux f fuel1 s = fieldsFuncAux f fuel2 s
  | 0, _, _, h1, _ => absurd h1 (Nat.not_lt_zero _)
  | _ + 1, 0, _, _, h2 => absurd h2 (Nat.not_lt_zero _)
  | n1 + 1, n2 + 1, s, h1, h2 => by
      simp only [fieldsFuncAux]
      cases hd : s.dropWhile f with
      | nil => rfl
      | cons c rest =>
          have hfc : f c = false := dropWhile_head_false s c rest hd
          have hlen1 : (c :: rest).length ≤ s.length := by
            rw [← hd]
            exact (List.dropWhile_sublist f).length_le
          have hlen : ((c :: rest).dropWhile (fun x => !f x)).length < s.length := by
            rw [List.dropWhile_cons_of_pos (by rw [hfc]; rfl)]
            calc (rest.dropWhile (fun x => !f x)).length ≤ rest.length :=
                  (List.dropWhile_sublist _).length_le
              _ < (c :: rest).length := by simp
              _ ≤ s.length := hlen1
          dsimp only
          rw [fieldsFuncAux_congr n1 n2 ((c :: rest).dropWhile (fun x => !f x))
            (by omega) (by omega)]

theorem fieldsFunc_eq (f : Char → Bool) (s : List Char) :
    fieldsFunc f s =
      match s.dropWhile f with
      | [] => []
      | c :: rest =>
          (c :: rest).takeWhile (fun x => !f x) ::
            fieldsFunc f ((c :: rest).dropWhile (fun x => !f x)) := by
  unfold fieldsFunc
  conv_lhs => rw [fieldsFuncAux]
  cases hd : s.dropWhile f with
  | nil => rfl
  | cons c rest =>
      have hfc : f c = false := dropWhile_head_false s c rest hd
      have hlen1 : (c :: rest).length ≤ s.length := by
        rw [← hd]
        exact (List.dropWhile_sublist f).length_le
      have hlen : ((c :: rest).dropWhile (fun x => !f x)).length < s.length := by
        rw [List.dropWhile_cons_of_pos (by rw [hfc]; rfl)]
        calc (rest.dropWhile (fun x => !f x)).length ≤ rest.length :=
              (List.dropWhile_sublist _).length_le
          _ < (c :: rest).length := by simp
          _ ≤ s.length := hlen1
      dsimp only
      rw [fieldsFuncAux_congr s.length (((c :: rest).dropWhile (fun x => !f x)).length + 1)
        ((c :: rest).dropWhile (fun x => !f x)) (by omega) (by omega)]

theorem isPrefixOf_self_append : ∀ (a b : List Char), a.isPrefixOf (a ++ b) = true
  | [], _ => by simp [List.isPrefixOf]
  | c :: a2, b => by
      simp only [List.cons_append, List.isPrefixOf, beq_self_eq_true, Bool.true_and]
      exact isPrefixOf_self_append a2 b

theorem isPrefixOf_cons_head {c0 d : Char} {t x : List Char}
    (h : (c0 :: t).isPrefixOf (d :: x) = true) : c0 = d := by
  simp only [List.isPrefixOf, Bool.and_eq_true, beq_iff_eq] at h
  exact h.1

theorem strIndex_sep_append {f : Char → Bool} :
    ∀ (sep : List Char), (∀ x ∈ sep, f x = true) →
    ∀ (c0 : Char) (tok2 tail : List Char), f c0 = false →
    strIndex (sep ++ ((c0 :: tok2) ++ tail)) (c0 :: tok2) = some sep.length
  | [], _, c0, tok2, tail, _ => by
      rw [List.nil_append]
      unfold strIndex
      rw [if_pos (isPrefixOf_self_append _ _)]
      rfl
  | d :: sep, h, c0, tok2, tail, hc0 => by
      rw [List.cons_append]
      unfold strIndex
      have hnp : ¬((c0 :: tok2).isPrefixOf (d :: (sep ++ ((c0 :: tok2) ++ tail))) = true) := by
        intro hp
        have hcd : c0 = d := isPrefixOf_cons_head hp
        have := h d (List.mem_cons_self d sep)
        rw [← hcd, hc0] at this
        cases this
      rw [if_neg hnp]
      dsimp only
      rw [strIndex_sep_append sep (fun x hx => h x (List.mem_cons_of_mem d hx)) c0 tok2 tail hc0]
      rfl

theorem interleave_cons_shape (c : Char) (s2 : List Char) :
    ∀ (rest : List (List Char × List Char)), ∃ z, interleave (c :: s2) rest = c :: z
  | [] => ⟨s2, rfl⟩
  | (w2, s3) :: r2 => ⟨s2 ++ (w2 ++ interleave s3 r2), by
      simp only [interleave]
      rw [List.cons_append, List.cons_append, List.append_assoc]⟩

theorem interleave_sep_head {s : List Char} {rest : List (List Char × List Char)}
    (hs : SepRun s) (hcond : rest = [] ∨ s ≠ []) :
    (interleave s rest).takeWhile (fun x => !isSepChar x) = [] ∧
    (interleave s rest).dropWhile (fun x => !isSepChar x) = interleave s rest := by
  cases s with
  | nil =>
      have hrest : rest = [] := by
        rcases hcond with h | h
        · exact h
        · exact absurd rfl h
      subst hrest
      exact ⟨rfl, rfl⟩
  | cons c s2 =>
      obtain ⟨z, hz⟩ := interleave_cons_shape c s2 rest
      rw [hz]
      have hc : isSepChar c = true := hs c (by
        rw [hz] at *
        exact List.mem_cons_self c s2)
      constructor
      · exact List.takeWhile_cons_of_neg (by rw [hc]; simp)
      · exact List.dropWhile_cons_of_neg (by rw [hc]; simp)

theorem fieldsFunc_interleave :
    ∀ (ps : List (List Char × List Char)) (s0 : List Char), SepRun s0 → WFTokens ps →
    fieldsFunc isSepChar (interleave s0 ps) = ps.map Prod.fst
  | [], s0, h0, _ => by
      rw [fieldsFunc_eq]
      have hdrop : (interleave s0 []).dropWhile isSepChar = [] := by
        simp only [interleave]
        exact List.dropWhile_eq_nil_iff.2 (fun x hx => h0 x hx)
      rw [hdrop]
      rfl
  | (w, s) :: rest, s0, h0, hps => by
      obtain ⟨⟨hwne, hwsep⟩, hs, hcond, hrest⟩ := hps
      obtain ⟨c0, w2, rfl⟩ : ∃ c0 w2, w = c0 :: w2 := by
        cases w with
        | nil => exact absurd rfl hwne
        | cons a b => exact ⟨a, b, rfl⟩
      have hc0 : isSepChar c0 = false := hwsep c0 (List.mem_cons_self c0 w2)
      have ihead := interleave_sep_head hs hcond
      rw [fieldsFunc_eq]
      have hdrop : (interleave s0 ((c0 :: w2, s) :: rest)).dropWhile isSepChar
          = c0 :: (w2 ++ interleave s rest) := by
        simp only [interleave]
        rw [List.append_assoc, dropWhile_append_all h0, List.cons_append]
        exact List.dropWhile_cons_of_neg (by rw [hc0]; simp)
      rw [hdrop]
      dsimp only
      have htake : (c0 :: (w2 ++ interleave s rest)).takeWhile (fun x => !isSepChar x)
          = c0 :: w2 := by
        rw [← List.cons_append, takeWhile_append_all (by
          intro c hc
          rw [hwsep c hc]
          rfl), ihead.1, List.append_nil]
      have hdrop2 : (c0 :: (w2 ++ interleave s rest)).dropWhile (fun x => !isSepChar x)
          = interleave s rest := by
        rw [← List.cons_append, dropWhile_append_all (by
          intro c hc
          rw [hwsep c hc]
          rfl), ihead.2]
      rw [htake, hdrop2, fieldsFunc_interleave rest s hs hrest]
      rfl

theorem csLoop_interleave (dict : TrieNode) (freq : List Char → Int) :
    ∀ (ps : List (List Char × List Char)) (s0 : List Char), SepRun s0 → WFTokens ps →
    csLoop dict freq (ps.map Prod.fst) (interleave s0 ps) =
      interleave s0 (ps.map (fun p => (emitToken dict freq p.1, p.2)))
  | [], s0, _, _ => rfl
  | (w, s) :: rest, s0, h0, hps => by
      obtain ⟨⟨hwne, hwsep⟩, hs, hcond, hrest⟩ := hps
      obtain ⟨c0, w2, rfl⟩ : ∃ c0 w2, w = c0 :: w2 := by
        cases w with
        | nil => exact absurd rfl hwne
        | cons a b => exact ⟨a, b, rfl⟩
      have hc0 : isSepChar c0 = false := hwsep c0 (List.mem_cons_self c0 w2)
      simp only [List.map_cons, csLoop, interleave]
      have hassoc : s0 ++ (c0 :: w2) ++ interleave s rest
          = s0 ++ ((c0 :: w2) ++ interleave s rest) := List.append_assoc _ _ _
      rw [hassoc]
      rw [strIndex_sep_append s0 h0 c0 w2 (interleave s rest) hc0]
      dsimp only
      have htake : (s0 ++ ((c0 :: w2) ++ interleave s rest)).take s0.length = s0 :=
        List.take_left' rfl
      have hdrop : (s0 ++ ((c0 :: w2) ++ interleave s rest)).drop (s0.length + (c0 :: w2).length)
          = interleave s rest := by
        rw [← List.append_assoc]
        refine List.drop_left' ?_
        rw [List.length_append]
      rw [htake, hdrop, csLoop_interleave dict freq rest s hs hrest]

theorem correctSpelling_interleave (dict : TrieNode) (freq : List Char → Int)
    (s0 : List Char) (ps : List (List Char × List Char))
    (h0 : SepRun s0) (hps : WFTokens ps) :
    correctSpelling dict freq (interleave s0 ps) =
      interleave s0 (ps.map (fun p => (emitToken dict freq p.1, p.2))) := by
  simp only [correctSpelling]
  rw [fieldsFunc_interleave ps s0 h0 hps]
  split
  · have hnil : ps = [] := by
      cases ps with
      | nil => rfl
      | cons p r =>
          simp only [List.length_map, List.length_cons] at *
          omega
    subst hnil
    rfl
  · exact csLoop_interleave dict freq ps s0 h0 hps

theorem goPreAux_spec (orig : List Char) :
    ∀ (s pre : List Char), (∃ c ∈ s, isLetterOrDigit c = true) →
    goPreAux orig s pre =
      (pre ++ s.takeWhile (fun c => !isLetterOrDigit c),
       s.dropWhile (fun c => !isLetterOrDigit c))
  | [], pre, hex => by
      obtain ⟨c, hc, _⟩ := hex
      cases hc
  | c :: t, pre, hex => by
      by_cases hld : isLetterOrDigit c = true
      · simp only [goPreAux, hld]
        rw [List.takeWhile_cons_of_neg (by rw [hld]; simp)]
        rw [List.dropWhile_cons_of_neg (by rw [hld]; simp)]
        simp
      · have hld2 : isLetterOrDigit c = false := Bool.eq_false_iff.2 hld
        simp only [goPreAux, hld2]
        have hex2 : ∃ d ∈ t, isLetterOrDigit d = true := by
          obtain ⟨d, hd, hdl⟩ := hex
          rcases List.mem_cons.1 hd with h1 | h1
          · subst h1
            rw [hdl] at hld2
            cases hld2
          · exact ⟨d, h1, hdl⟩
        rw [goPreAux_spec orig t (pre ++ [c]) hex2]
        rw [List.takeWhile_cons_of_pos (by rw [hld2]; rfl)]
        rw [List.dropWhile_cons_of_pos (by rw [hld2]; rfl)]
        simp

theorem goPre_spec {w : List Char} (hex : ∃ c ∈ w, isLetterOrDigit c = true) :
    goPre w = (specPre w, w.dropWhile (fun c => !isLetterOrDigit c)) := by
  unfold goPre specPre
  rw [goPreAux_spec w w [] hex]
  rfl

theorem goSuf_fst_eq (v : List Char) : (goSuf v).1 ++ (goSuf v).2 = v := by
  unfold goSuf
  rw [← List.reverse_append, List.takeWhile_append_dropWhile, List.reverse_reverse]

theorem specParts_append (w : List Char) :
    specPre w ++ (specCore w ++ specSuf w) = w := by
  unfold specPre specCore specSuf
  rw [← List.reverse_append, List.takeWhile_append_dropWhile, List.reverse_reverse]
  exact List.takeWhile_append_dropWhile _ _

theorem specCore_goSuf (w : List Char) :
    (goSuf (w.dropWhile (fun c => !isLetterOrDigit c))).1 = specCore w := rfl

theorem specSuf_goSuf (w : List Char) :
    (goSuf (w.dropWhile (fun c => !isLetterOrDigit c))).2 = specSuf w := rfl

theorem emitToken_shape (dict : TrieNode) (freq : List Char → Int) (w : List Char)
    (hex : ∃ c ∈ w, isLetterOrDigit c = true) :
    emitToken dict freq w = w ∨
    ((specCore w).length > 2 ∧
     searchT dict (toLowerL (specCore w)) = false ∧
     findClosestMatch dict freq (toLowerL (specCore w)) ≠ toLowerL (specCore w) ∧
     emitToken dict freq w =
       specPre w ++ applyCasePattern (specCore w)
         (findClosestMatch dict freq (toLowerL (specCore w))) ++ specSuf w) := by
  simp only [emitToken]
  rw [goPre_spec hex]
  simp only [specCore_goSuf, specSuf_goSuf]
  by_cases h1 : ((specCore w).length ≤ 2 || isNumberL (specCore w)) = true
  · rw [if_pos h1]
    exact Or.inl rfl
  · rw [if_neg h1]
    by_cases h2 : searchT dict (toLowerL (specCore w)) = true
    · rw [if_pos h2]
      exact Or.inl rfl
    · rw [if_neg h2]
      by_cases h3 : (!(findClosestMatch dict freq (toLowerL (specCore w))
          = toLowerL (specCore w))) = true
      · rw [if_pos h3]
        refine Or.inr ⟨?_, Bool.eq_false_iff.2 h2, ?_, rfl⟩
        · rcases Bool.or_eq_false_iff.1 (Bool.eq_false_iff.2 h1) with ⟨ha, _⟩
          simp only [decide_eq_false_iff_not] at ha
          omega
        · intro hcontra
          rw [hcontra] at h3
          simp at h3
      · rw [if_neg h3]
        refine Or.inl ?_
        have hcl : findClosestMatch dict freq (toLowerL (specCore w)) = toLowerL (specCore w) := by
          by_contra hne
          exact h3 (by simp [hne])
        rw [show specPre w ++ specCore w ++ specSuf w = w by
          rw [List.append_assoc]
          exact specParts_append w]

/-- C5 (amended): for every decomposition of a text into tokens and
separator runs, the output reproduces every inter-token separator run
byte-for-byte and maps each token independently to its emitted fragment;
for every token containing a letter or digit the fragment is
prefix ++ body ++ suffix for the punctuation margins of that token, so the
output differs from the input only at token cores.  Tokens without a
letter or digit are excluded: for them the prefix loop never truncates the
core and the emitted fragment can duplicate the leading characters. -/
theorem claim_C5_frame (dict : TrieNode) (freq : List Char → Int)
    (s0 : List Char) (ps : List (List Char × List Char))
    (h0 : SepRun s0) (hps : WFTokens ps) :
    correctSpelling dict freq (interleave s0 ps) =
      interleave s0 (ps.map (fun p => (emitToken dict freq p.1, p.2))) ∧
    (∀ p ∈ ps, (∃ c ∈ p.1, isLetterOrDigit c = true) →
      p.1 = specPre p.1 ++ specCore p.1 ++ specSuf p.1 ∧
      ∃ body, emitToken dict freq p.1 = specPre p.1 ++ body ++ specSuf p.1) := by
  refine ⟨correctSpelling_interleave dict freq s0 ps h0 hps, ?_⟩
  intro p hp hex
  have hre : p.1 = specPre p.1 ++ specCore p.1 ++ specSuf p.1 := by
    rw [List.append_assoc]
    exact (specParts_append p.1).symm
  refine ⟨hre, ?_⟩
  rcases emitToken_shape dict freq p.1 hex with h | ⟨_, _, _, h⟩
  · exact ⟨specCore p.1, by rw [h, ← hre]⟩
  · exact ⟨applyCasePattern (specCore p.1)
      (findClosestMatch dict freq (toLowerL (specCore p.1))), h⟩

/-- C5 witness: a concrete two-token text with its separator runs. -/
theorem claim_C5_witness :
    correctSpelling dictHello freqZero
        (interleave [' '] [(['h','e','l','l','l','o'], [' ']), (['o','k'], [])]) =
      interleave [' ']
        ([(['h','e','l','l','l','o'], [' ']), (['o','k'], [])].map
          (fun p => (emitToken dictHello freqZero p.1, p.2))) ∧
    (∀ p ∈ [(['h','e','l','l','l','o'], [' ']), (['o','k'], [])],
      (∃ c ∈ p.1, isLetterOrDigit c = true) →
      p.1 = specPre p.1 ++ specCore p.1 ++ specSuf p.1 ∧
      ∃ body, emitToken dictHello freqZero p.1 = specPre p.1 ++ body ++ specSuf p.1) :=
  claim_C5_frame dictHello freqZero [' ']
    [(['h','e','l','l','l','o'], [' ']), (['o','k'], [])]
    (by decide)
    ⟨by decide, by decide, Or.inr (by decide), by decide, by decide, Or.inl rfl, trivial⟩

/-- C5 counterexample: for the one-token text of three apostrophes with a
dictionary containing hello, the correction step leaves the core
unchanged, yet the output is the token duplicated, so the output differs
from the input somewhere other than a corrected token core. -/
theorem claim_C5_counterexample :
    correctSpelling dictHello freqZero word3Apos = word3Apos ++ word3Apos ∧
    findClosestMatch dictHello freqZero word3Apos = word3Apos ∧
    correctSpelling dictHello freqZero word3Apos ≠ word3Apos :=
  ⟨by decide, by decide, by decide⟩

/-- C6: when a token is corrected to a different word, the emitted
fragment re-applies the recorded case pattern to the correction between
the token punctuation margins, and concretely Helllo corrects to Hello and
HELLLO to HELLO against a dictionary containing hello. -/
theorem claim_C6_case_preservation (dict : TrieNode) (freq : List Char → Int)
    (w pre clean0 clean suf : List Char)
    (h1 : goPre w = (pre, clean0)) (h2 : goSuf clean0 = (clean, suf))
    (h3 : (decide (clean.length ≤ 2) || isNumberL clean) = false)
    (h4 : searchT dict (toLowerL clean) = false)
    (h5 : findClosestMatch dict freq (toLowerL clean) ≠ toLowerL clean) :
    emitToken dict freq w =
      pre ++ applyCasePattern clean (findClosestMatch dict freq (toLowerL clean)) ++ suf ∧
    correctSpelling dictHello freqZero wordHelllo = ['H','e','l','l','o'] ∧
    correctSpelling dictHello freqZero wordHELLLO = ['H','E','L','L','O'] := by
  refine ⟨?_, by decide, by decide⟩
  simp only [emitToken, h1, h2]
  rw [if_neg (by rw [h3]; simp)]
  rw [if_neg (by rw [h4]; simp)]
  rw [if_pos (by simp [h5])]

/-- C6 witness: the general part applied to the token Helllo against the
dictionary containing hello. -/
theorem claim_C6_witness :
    emitToken dictHello freqZero wordHelllo =
      [] ++ applyCasePattern wordHelllo
        (findClosestMatch dictHello freqZero (toLowerL wordHelllo)) ++ [] ∧
    correctSpelling dictHello freqZero wordHelllo = ['H','e','l','l','o'] ∧
    correctSpelling dictHello freqZero wordHELLLO = ['H','E','L','L','O'] :=
  claim_C6_case_preservation dictHello freqZero wordHelllo [] wordHelllo wordHelllo []
    (by decide) (by decide) (by decide) (by decide) (by decide)

/-- C7: the token of three apostrophes is zero-length after the stripping
the specification describes, yet the code leaves the core untruncated when
no letter or digit is present, reaches the correction path, and emits the
accumulated prefix in addition to the untouched core: the fragment appears
twice in the output instead of passing through unchanged once. -/
theorem claim_C7_malformed_token :
    specCore word3Apos = [] ∧
    specPre word3Apos = word3Apos ∧
    correctSpelling dictHello freqZero word3Apos = word3Apos ++ word3Apos :=
  ⟨by decide, by decide, by decide⟩

theorem alphabet_facts : ∀ c ∈ alphabet,
    Char.toLower c = c ∧ isSepChar c = false ∧ suffixStrippable c = false ∧
    isLetterOrDigit c = true ∧
    Char.toLower (Char.toUpper c) = c ∧ isSepChar (Char.toUpper c) = false ∧
    suffixStrippable (Char.toUpper c) = false ∧ isLetterOrDigit (Char.toUpper c) = true := by
  decide

theorem toLowerL_id {corr : List Char} (hall : ∀ c ∈ corr, c ∈ alphabet) :
    toLowerL corr = corr := by
  unfold toLowerL
  rw [List.map_congr_left (fun c hc => (alphabet_facts c (hall c hc)).1)]
  exact List.map_id corr

theorem applyCase_facts {corr : List Char} (hne : corr ≠ []) (hall : ∀ c ∈ corr, c ∈ alphabet)
    (clean : List Char) :
    applyCasePattern clean corr ≠ [] ∧
    toLowerL (applyCasePattern clean corr) = corr ∧
    (∀ c ∈ applyCasePattern clean corr,
      isSepChar c = false ∧ suffixStrippable c = false ∧ isLetterOrDigit c = true) := by
  unfold applyCasePattern
  split
  · refine ⟨by simp [toUpperL, hne], ?_, ?_⟩
    · unfold toLowerL toUpperL
      rw [List.map_map]
      rw [List.map_congr_left (fun c hc => ?_)]
      · exact List.map_id corr
      · exact (alphabet_facts c (hall c hc)).2.2.2.2.1
    · intro c hc
      obtain ⟨d, hd, rfl⟩ := List.mem_map.1 hc
      obtain ⟨_, _, _, _, _, hsep, hstrip, hld⟩ := alphabet_facts d (hall d hd)
      exact ⟨hsep, hstrip, hld⟩
  · split
    · cases corr with
      | nil => exact absurd rfl hne
      | cons c0 r =>
          refine ⟨by simp [upperFirst], ?_, ?_⟩
          · unfold toLowerL upperFirst
            rw [List.map_cons]
            rw [(alphabet_facts c0 (hall c0 (List.mem_cons_self c0 r))).2.2.2.2.1]
            rw [List.map_congr_left (fun c hc =>
              (alphabet_facts c (hall c (List.mem_cons_of_mem c0 hc))).1)]
            rw [show List.map (fun c => c) r = List.map id r from rfl, List.map_id]
          · intro c hc
            rcases List.mem_cons.1 hc with h1 | h1
            · subst h1
              obtain ⟨_, _, _, _, _, hsep, hstrip, hld⟩ :=
                alphabet_facts c0 (hall c0 (List.mem_cons_self c0 r))
              exact ⟨hsep, hstrip, hld⟩
            · obtain ⟨_, hsep, hstrip, hld, _⟩ :=
                alphabet_facts c (hall c (List.mem_cons_of_mem c0 h1))
              exact ⟨hsep, hstrip, hld⟩
    · refine ⟨hne, toLowerL_id hall, ?_⟩
      intro c hc
      obtain ⟨_, hsep, hstrip, hld, _⟩ := alphabet_facts c (hall c hc)
      exact ⟨hsep, hstrip, hld⟩

theorem fcm_cases (dict : TrieNode) (freq : List Char → Int) (v : List Char) :
    findClosestMatch dict freq v = v ∨ searchT dict (findClosestMatch dict freq v) = true := by
  simp only [findClosestMatch]
  split
  · exact Or.inl rfl
  · split
    · exact Or.inl rfl
    · cases hs : List.insertionSort candLE (allCandidates dict freq v) with
      | nil => exact Or.inl rfl
      | cons c rest =>
          refine Or.inr ?_
          have hc : c ∈ allCandidates dict freq v := by
            have hperm := List.perm_insertionSort candLE (allCandidates dict freq v)
            rw [hs] at hperm
            exact hperm.subset (List.mem_cons_self c rest)
          exact (mem_allCandidates hc).1

theorem buildTrie_sane (ws : List (List Char))
    (hws : ∀ s ∈ ws, s ≠ [] ∧ ∀ c ∈ s, c ∈ alphabet) :
    ∀ s, searchT (buildTrie ws) s = true → s ≠ [] ∧ ∀ c ∈ s, c ∈ alphabet := by
  intro s hs
  unfold buildTrie at hs
  rw [searchT_foldl_insertT ws emptyTrieNode s, searchT_emptyTrieNode] at hs
  simp only [Bool.false_or, decide_eq_true_eq] at hs
  exact hws s hs

theorem specPre_chars (w : List Char) : ∀ c ∈ specPre w, isLetterOrDigit c = false := by
  intro c hc
  have h := List.mem_takeWhile_imp hc
  simpa using h

theorem specSuf_chars (w : List Char) : ∀ c ∈ specSuf w, suffixStrippable c = true := by
  intro c hc
  unfold specSuf at hc
  rw [List.mem_reverse] at hc
  exact List.mem_takeWhile_imp hc

theorem specPre_subset (w : List Char) : ∀ c ∈ specPre w, c ∈ w := by
  intro c hc
  exact (List.takeWhile_sublist _).subset hc

theorem specSuf_subset (w : List Char) : ∀ c ∈ specSuf w, c ∈ w := by
  intro c hc
  unfold specSuf at hc
  rw [List.mem_reverse] at hc
  have h1 := (List.takeWhile_sublist suffixStrippable).subset hc
  rw [List.mem_reverse] at h1
  exact (List.dropWhile_suffix _).subset h1

theorem emit_parse {pre X suf : List Char}
    (hpre : ∀ c ∈ pre, isLetterOrDigit c = false)
    (hX : X ≠ []) (hXld : ∀ c ∈ X, isLetterOrDigit c = true)
    (hXstrip : ∀ c ∈ X, suffixStrippable c = false)
    (hsuf : ∀ c ∈ suf, suffixStrippable c = true) :
    (pre ++ X ++ suf).dropWhile (fun c => !isLetterOrDigit c) = X ++ suf ∧
    (pre ++ X ++ suf).takeWhile (fun c => !isLetterOrDigit c) = pre ∧
    goSuf (X ++ suf) = (X, suf) := by
  obtain ⟨x0, X2, rfl⟩ : ∃ x0 X2, X = x0 :: X2 := by
    cases X with
    | nil => exact absurd rfl hX
    | cons a b => exact ⟨a, b, rfl⟩
  have hpre2 : ∀ c ∈ pre, (fun c => !isLetterOrDigit c) c = true := by
    intro c hc
    have h1 := hpre c hc
    simp [h1]
  have hx0 : isLetterOrDigit x0 = true := hXld x0 (List.mem_cons_self x0 X2)
  refine ⟨?_, ?_, ?_⟩
  · rw [List.append_assoc, dropWhile_append_all hpre2, List.cons_append]
    exact List.dropWhile_cons_of_neg (by rw [hx0]; simp)
  · rw [List.append_assoc, takeWhile_append_all hpre2, List.cons_append]
    rw [List.takeWhile_cons_of_neg (by rw [hx0]; simp), List.append_nil]
  · have hrev : ((x0 :: X2) ++ suf).reverse = suf.reverse ++ (x0 :: X2).reverse :=
      List.reverse_append _ _
    obtain ⟨y, ys, hy⟩ : ∃ y ys, (x0 :: X2).reverse = y :: ys := by
      cases hrev2 : (x0 :: X2).reverse with
      | nil =>
          have : (x0 :: X2) = [] := by
            have h9 := congrArg List.reverse hrev2
            rw [List.reverse_reverse] at h9
            simp at h9
          cases this
      | cons a b => exact ⟨a, b, rfl⟩
    have hymem : y ∈ (x0 :: X2) := by
      rw [← List.mem_reverse, hy]
      exact List.mem_cons_self y ys
    have hystrip : suffixStrippable y = false := hXstrip y hymem
    have hsufrev : ∀ c ∈ suf.reverse, suffixStrippable c = true := by
      intro c hc
      exact hsuf c (List.mem_reverse.1 hc)
    unfold goSuf
    rw [hrev, hy]
    rw [takeWhile_append_all hsufrev, dropWhile_append_all hsufrev]
    rw [List.takeWhile_cons_of_neg (by rw [hystrip]; simp)]
    rw [List.dropWhile_cons_of_neg (by rw [hystrip]; simp)]
    rw [List.append_nil, ← hy]
    rw [List.reverse_reverse, List.reverse_reverse]

theorem emitToken_of_incore (dict : TrieNode) (freq : List Char → Int) {pre X suf : List Char}
    (hpre : ∀ c ∈ pre, isLetterOrDigit c = false)
    (hX : X ≠ []) (hXld : ∀ c ∈ X, isLetterOrDigit c = true)
    (hXstrip : ∀ c ∈ X, suffixStrippable c = false)
    (hsuf : ∀ c ∈ suf, suffixStrippable c = true)
    (hXdict : searchT dict (toLowerL X) = true) :
    emitToken dict freq (pre ++ X ++ suf) = pre ++ X ++ suf := by
  obtain ⟨hdrop, htake, hgosuf⟩ := emit_parse hpre hX hXld hXstrip hsuf
  have hexE : ∃ c ∈ pre ++ X ++ suf, isLetterOrDigit c = true := by
    obtain ⟨x0, X2, rfl⟩ : ∃ x0 X2, X = x0 :: X2 := by
      cases X with
      | nil => exact absurd rfl hX
      | cons a b => exact ⟨a, b, rfl⟩
    refine ⟨x0, ?_, hXld x0 (List.mem_cons_self x0 X2)⟩
    rw [List.append_assoc]
    exact List.mem_append_right pre (List.mem_append_left suf (List.mem_cons_self x0 X2))
  simp only [emitToken]
  rw [goPre_spec hexE]
  simp only [hdrop, hgosuf]
  split
  · rfl
  · simp [hXdict]

theorem emitToken_idem (dict : TrieNode) (freq : List Char → Int)
    (hsane : ∀ s, searchT dict s = true → s ≠ [] ∧ ∀ c ∈ s, c ∈ alphabet)
    (w : List Char) (hex : ∃ c ∈ w, isLetterOrDigit c = true) :
    emitToken dict freq (emitToken dict freq w) = emitToken dict freq w := by
  rcases emitToken_shape dict freq w hex with h | ⟨_, _, hne, h⟩
  · rw [h]
    exact h
  · have hcd : searchT dict (findClosestMatch dict freq (toLowerL (specCore w))) = true := by
      rcases fcm_cases dict freq (toLowerL (specCore w)) with h1 | h1
      · exact absurd h1 hne
      · exact h1
    obtain ⟨hcne, hall⟩ := hsane _ hcd
    obtain ⟨hXne, hXlow, hXchars⟩ := applyCase_facts hcne hall (specCore w)
    rw [h]
    refine emitToken_of_incore dict freq (specPre_chars w) hXne ?_ ?_ (specSuf_chars w) ?_
    · intro c hc
      exact (hXchars c hc).2.2
    · intro c hc
      exact (hXchars c hc).2.1
    · rw [hXlow]
      exact hcd

theorem emitToken_fragment (dict : TrieNode) (freq : List Char → Int)
    (hsane : ∀ s, searchT dict s = true → s ≠ [] ∧ ∀ c ∈ s, c ∈ alphabet)
    (w : List Char) (hw : TokRun w) (hex : ∃ c ∈ w, isLetterOrDigit c = true) :
    TokRun (emitToken dict freq w) ∧ ∃ c ∈ emitToken dict freq w, isLetterOrDigit c = true := by
  rcases emitToken_shape dict freq w hex with h | ⟨_, _, hne, h⟩
  · rw [h]
    exact ⟨hw, hex⟩
  · have hcd : searchT dict (findClosestMatch dict freq (toLowerL (specCore w))) = true := by
      rcases fcm_cases dict freq (toLowerL (specCore w)) with h1 | h1
      · exact absurd h1 hne
      · exact h1
    obtain ⟨hcne, hall⟩ := hsane _ hcd
    obtain ⟨hXne, _, hXchars⟩ := applyCase_facts hcne hall (specCore w)
    rw [h]
    constructor
    · constructor
      · intro habs
        rw [List.append_assoc] at habs
        rw [List.append_eq_nil] at habs
        rw [List.append_eq_nil] at habs
        exact hXne habs.2.1
      · intro c hc
        rw [List.append_assoc] at hc
        rcases List.mem_append.1 hc with h1 | h1
        · exact hw.2 c (specPre_subset w c h1)
        · rcases List.mem_append.1 h1 with h2 | h2
          · exact (hXchars c h2).1
          · exact hw.2 c (specSuf_subset w c h2)
    · obtain ⟨x0, hx0⟩ := List.exists_mem_of_ne_nil _ hXne
      refine ⟨x0, ?_, (hXchars x0 hx0).2.2⟩
      rw [List.append_assoc]
      exact List.mem_append_right _ (List.mem_append_left _ hx0)

theorem WFTokens_mem_tok : ∀ (ps : List (List Char × List Char)), WFTokens ps →
    ∀ p ∈ ps, TokRun p.1
  | [], _, p, hp => absurd hp (List.not_mem_nil p)
  | (w, s) :: rest, ⟨hw, _, _, hrest⟩, p, hp => by
      rcases List.mem_cons.1 hp with h1 | h1
      · subst h1
        exact hw
      · exact WFTokens_mem_tok rest hrest p h1

theorem WFTokens_map_emit (dict : TrieNode) (freq : List Char → Int)
    (hsane : ∀ s, searchT dict s = true → s ≠ [] ∧ ∀ c ∈ s, c ∈ alphabet) :
    ∀ (ps : List (List Char × List Char)), WFTokens ps →
    (∀ p ∈ ps, ∃ c ∈ p.1, isLetterOrDigit c = true) →
    WFTokens (ps.map (fun p => (emitToken dict freq p.1, p.2)))
  | [], _, _ => trivial
  | (w, s) :: rest, ⟨hw, hs, hcond, hrest⟩, htoks => by
      refine ⟨?_, hs, ?_, ?_⟩
      · exact (emitToken_fragment dict freq hsane w hw
          (htoks (w, s) (List.mem_cons_self _ _))).1
      · rcases hcond with h1 | h1
        · subst h1
          exact Or.inl rfl
        · exact Or.inr h1
      · exact WFTokens_map_emit dict freq hsane rest hrest
          (fun p hp => htoks p (List.mem_cons_of_mem _ hp))

theorem text_decomp (text : List Char) :
    ∃ ps, WFTokens ps ∧ text = interleave (text.takeWhile isSepChar) ps ∧
      fieldsFunc isSepChar text = ps.map Prod.fst := by
      cases hd : text.dropWhile isSepChar with
      | nil =>
          refine ⟨[], trivial, ?_, ?_⟩
          · show text = interleave (text.takeWhile isSepChar) []
            simp only [interleave]
            conv_lhs => rw [← List.takeWhile_append_dropWhile isSepChar text]
            rw [hd, List.append_nil]
          · rw [fieldsFunc_eq, hd]
            rfl
      | cons c rest =>
          have hfc : isSepChar c = false := dropWhile_head_false _ _ _ hd
          have hlen1 : (c :: rest).length ≤ text.length := by
            rw [← hd]
            exact (List.dropWhile_sublist isSepChar).length_le
          have hlen : ((c :: rest).dropWhile (fun x => !isSepChar x)).length < text.length := by
            rw [List.dropWhile_cons_of_pos (by rw [hfc]; rfl)]
            calc (rest.dropWhile (fun x => !isSepChar x)).length ≤ rest.length :=
                  (List.dropWhile_sublist _).length_le
              _ < (c :: rest).length := by simp
              _ ≤ text.length := hlen1
          obtain ⟨ps1, h1, h2, h3⟩ := text_decomp ((c :: rest).dropWhile (fun x => !isSepChar x))
          refine ⟨((c :: rest).takeWhile (fun x => !isSepChar x),
                   ((c :: rest).dropWhile (fun x => !isSepChar x)).takeWhile isSepChar) :: ps1,
                  ⟨?_, ?_, ?_, h1⟩, ?_, ?_⟩
          · constructor
            · rw [List.takeWhile_cons_of_pos (by rw [hfc]; rfl)]
              intro habs
              cases habs
            · intro d hdm
              have := List.mem_takeWhile_imp hdm
              simpa using this
          · intro d hdm
            exact List.mem_takeWhile_imp hdm
          · cases hr : (c :: rest).dropWhile (fun x => !isSepChar x) with
            | nil =>
                refine Or.inl ?_
                rw [hr] at h3
                have : fieldsFunc isSepChar [] = [] := rfl
                rw [this] at h3
                exact (List.map_eq_nil_iff.1 h3.symm)
            | cons d z =>
                refine Or.inr ?_
                have hdneg : (fun x => !isSepChar x) d = false := dropWhile_head_false _ _ _ hr
                have hds : isSepChar d = true := by
                  simpa using hdneg
                rw [List.takeWhile_cons_of_pos hds]
                intro habs
                cases habs
          · simp only [interleave]
            rw [← h2, List.append_assoc, List.takeWhile_append_dropWhile]
            conv_lhs => rw [← List.takeWhile_append_dropWhile isSepChar text]
            rw [hd]
          · rw [fieldsFunc_eq, hd]
            dsimp only
            rw [h3]
            rfl
termination_by text.length

theorem claim_C8_helper_tokens (ws : List (List Char)) (freq : List Char → Int)
    (hsane : ∀ s, searchT (buildTrie ws) s = true → s ≠ [] ∧ ∀ c ∈ s, c ∈ alphabet)
    (ps : List (List Char × List Char)) (hps : WFTokens ps)
    (hptoks : ∀ p ∈ ps, ∃ c ∈ p.1, isLetterOrDigit c = true) :
    ∀ p ∈ ps.map (fun p => (emitToken (buildTrie ws) freq p.1, p.2)),
      ∃ c ∈ p.1, isLetterOrDigit c = true := by
  intro p hp
  obtain ⟨q, hq, rfl⟩ := List.mem_map.1 hp
  exact (emitToken_fragment _ freq hsane q.1 (WFTokens_mem_tok ps hps q hq) (hptoks q hq)).2

/-- C8 (amended): for a dictionary built from non-empty words of plain
lowercase letters, correctSpelling is idempotent on every text whose
tokens each contain a letter or digit.  The two restrictions are forced:
a token with no letter or digit is duplicated rather than passed through,
and a dictionary word with leading punctuation can be re-parsed on the
second pass and corrected again. -/
theorem claim_C8_idempotent (ws : List (List Char)) (freq : List Char → Int) (text : List Char)
    (hws : ∀ s ∈ ws, s ≠ [] ∧ ∀ c ∈ s, c ∈ alphabet)
    (htoks : ∀ w ∈ fieldsFunc isSepChar text, ∃ c ∈ w, isLetterOrDigit c = true) :
    correctSpelling (buildTrie ws) freq (correctSpelling (buildTrie ws) freq text) =
      correctSpelling (buildTrie ws) freq text := by
  have hsane := buildTrie_sane ws hws
  obtain ⟨ps, hps, htext, hfields⟩ := text_decomp text
  have hs0 : SepRun (text.takeWhile isSepChar) := fun c hc => List.mem_takeWhile_imp hc
  have hptoks : ∀ p ∈ ps, ∃ c ∈ p.1, isLetterOrDigit c = true := by
    intro p hp
    apply htoks p.1
    rw [hfields]
    exact List.mem_map_of_mem Prod.fst hp
  have hpass1 : correctSpelling (buildTrie ws) freq text =
      interleave (text.takeWhile isSepChar)
        (ps.map (fun p => (emitToken (buildTrie ws) freq p.1, p.2))) := by
    conv_lhs => rw [htext]
    exact correctSpelling_interleave _ freq _ ps hs0 hps
  have hps2 : WFTokens (ps.map (fun p => (emitToken (buildTrie ws) freq p.1, p.2))) :=
    WFTokens_map_emit _ freq hsane ps hps hptoks
  rw [hpass1]
  rw [correctSpelling_interleave _ freq _ _ hs0 hps2]
  rw [List.map_map]
  congr 1
  apply List.map_congr_left
  intro p hp
  have hid := emitToken_idem _ freq hsane p.1 (hptoks p hp)
  simp only [Function.comp]
  rw [hid]

/-- C8 witness: the idempotence theorem applied to the text helllo ok and
the dictionary containing hello. -/
theorem claim_C8_witness :
    correctSpelling (buildTrie [['h','e','l','l','o']]) freqZero
      (correctSpelling (buildTrie [['h','e','l','l','o']]) freqZero
        ['h','e','l','l','l','o',' ','o','k']) =
    correctSpelling (buildTrie [['h','e','l','l','o']]) freqZero
      ['h','e','l','l','l','o',' ','o','k'] :=
  claim_C8_idempotent [['h','e','l','l','o']] freqZero ['h','e','l','l','l','o',' ','o','k']
    (by decide) (by decide)

/-- C8 counterexample: two texts on which the second pass changes the
output of the first although every token corrected by the first pass
lands on a dictionary word (the first text has no corrected token at all;
in the second the token is corrected to the dictionary word
apostrophe-abc). -/
theorem claim_C8_counterexample :
    (findClosestMatch dictHello freqZero word3Apos = word3Apos ∧
     correctSpelling dictHello freqZero (correctSpelling dictHello freqZero word3Apos) ≠
       correctSpelling dictHello freqZero word3Apos) ∧
    (searchT dictC8 (correctSpelling dictC8 freqZero textC8) = true ∧
     correctSpelling dictC8 freqZero (correctSpelling dictC8 freqZero textC8) ≠
       correctSpelling dictC8 freqZero textC8) :=
  ⟨⟨by decide, by decide⟩, ⟨by decide, by decide⟩⟩
